/-
Verification of the launcher's entry indexing and ranking engine
(src/entry_handler.rs, src/main.rs) against its specification.

Shallow embedding conventions:
* Rust `String`/`Cow<str>` becomes Lean `String`; a string's decoded
  character sequence is `s.data : List Char`.
* `Option<T>` becomes `Option T`.
* Fuzzy scores (nucleo `Pattern::score`, returning `Option<u32>`) become
  `Option Nat`.  The matcher and pattern of the external `nucleo_matcher`
  crate are abstracted into a single `Pattern` value carrying its scoring
  function on decoded haystacks; the repository never constructs one, it
  only threads it through.
* `compute_score` accumulates in `f64` and converts to `i64` at the end;
  every intermediate value is a sum of `u32` scores (each at most `2^32`,
  with far fewer than `2^20` summands), hence exactly representable in
  `f64`, so the arithmetic is modelled exactly over `Nat`.
* Functions returning `Result<_, _>` whose bodies never produce an error
  (`parse_desktop_entries` always returns `Ok`) are modelled as total
  functions to the success type.
-/
import Mathlib

namespace Launcher

/-- Rust `str::is_ascii`: every char is below 128. -/
def strIsAscii (s : String) : Bool :=
  s.data.all (fun c => c.toNat ≤ 127)

/-- `nucleo_matcher::Utf32Str::new(str, buf)`: for an ASCII string the
byte slice is used directly and the scratch buffer is left untouched;
otherwise the buffer is cleared and refilled with the decoded characters
and used as the haystack.  Either way the haystack's content is the
string's decoded character sequence; the result is (haystack, buffer
after the call). -/
def utf32New (s : String) (buf : List Char) : List Char × List Char :=
  if strIsAscii s then (s.data, buf) else (s.data, s.data)

/-- Abstraction of `nucleo_matcher`'s `(Matcher, Pattern)` pair as used by
`compute_score`: a single scoring function from a decoded haystack to an
optional fuzzy score (`Pattern::score` returns `Option<u32>`). -/
structure Pattern where
  score : List Char → Option Nat

/-- `freedesktop_file_parser::LocaleString`, of which the repository only
reads the `default` field. -/
structure LocaleString where
  default : String
deriving Repr, DecidableEq

/-- The fields of `EntryType::Application` that the repository reads:
`exec`, and the keyword/category lists (flattened to their default
locale values, as the code reads them). -/
structure AppFields where
  exec : Option String
  keywords : List String
  categories : List String
deriving Repr, DecidableEq

/-- `freedesktop_file_parser::EntryType`. -/
inductive EntryType where
  | application (app : AppFields)
  | link
  | directory
  | other
deriving Repr, DecidableEq

/-- The part of `freedesktop_file_parser`'s desktop-entry group that the
repository reads: name, entry type and the `NoDisplay` flag. -/
structure DesktopEntry where
  name : LocaleString
  entry_type : EntryType
  no_display : Option Bool
deriving Repr, DecidableEq

/-- `freedesktop_file_parser::DesktopFile`, restricted to the main entry
group (the repository's entry handling never reads `actions`). -/
structure DesktopFile where
  entry : DesktopEntry
deriving Repr, DecidableEq

/-- `AppEntry` from src/entry_handler.rs: the owned text fields, the
private cached decoded-character buffers, and the cached score
(`Option<i64>`, always holding a non-negative value, modelled `Option
Nat`). -/
structure AppEntry where
  name : String
  exec : String
  keywords : List String
  categories : List String
  name_buffer : List Char
  keywords_buffers : List (List Char)
  categories_buffers : List (List Char)
  score : Option Nat
deriving Repr, DecidableEq

namespace AppEntry

/-- `AppEntry::default()`: empty strings, empty lists, no score. -/
def default : AppEntry :=
  { name := ""
    exec := ""
    keywords := []
    categories := []
    name_buffer := []
    keywords_buffers := []
    categories_buffers := []
    score := none }

/-- `AppEntry::new`: stores the text fields and decodes `name`, each
keyword and each category into the cached buffers. -/
def new (name exec : String) (keywords categories : List String) : AppEntry :=
  { name := name
    exec := exec
    keywords := keywords
    categories := categories
    name_buffer := name.data
    keywords_buffers := keywords.map String.data
    categories_buffers := categories.map String.data
    score := none }

/-- `AppEntry::name_utf32`: `Utf32Str::new(&self.name, &mut
self.name_buffer)` — returns the haystack and the entry with the
possibly-refilled buffer. -/
def name_utf32 (e : AppEntry) : List Char × AppEntry :=
  let r := utf32New e.name e.name_buffer
  (r.1, { e with name_buffer := r.2 })

/-- The zip performed by `keywords_utf32`:
`self.keywords.iter().zip(self.keywords_buffers.iter_mut())`, each pair
going through `Utf32Str::new`.  Returns the haystacks and the updated
buffers; `zip` truncates at the shorter list, and buffers beyond the
keyword count are left as they were. -/
def utf32Zip : List String → List (List Char) → List (List Char) × List (List Char)
  | k :: ks, b :: bs =>
      let r := utf32New k b
      let rest := utf32Zip ks bs
      (r.1 :: rest.1, r.2 :: rest.2)
  | _, bs => ([], bs)

/-- `AppEntry::keywords_utf32`: the haystacks for the keywords paired
with their buffers, plus the entry with updated buffers. -/
def keywords_utf32 (e : AppEntry) : List (List Char) × AppEntry :=
  let r := utf32Zip e.keywords e.keywords_buffers
  (r.1, { e with keywords_buffers := r.2 })

/-- `AppEntry::compute_score`: 5 times the name's fuzzy score when the
name matches, plus each matching keyword's fuzzy score unweighted; the
total is unconditionally written to `self.score`.  (Categories are not
scored.) -/
def compute_score (p : Pattern) (e : AppEntry) : AppEntry :=
  let n := e.name_utf32
  let nameContrib := match p.score n.1 with
    | some s => 5 * s
    | none => 0
  let k := n.2.keywords_utf32
  let total := nameContrib + (k.1.map (fun h => (p.score h).getD 0)).sum
  { k.2 with score := some total }

end AppEntry

/-- Whether `parse_desktop_entries` keeps a record: entry type is
`Application` and `exec` is present (its `filter_map` returns `Some`
exactly then). -/
def launchable (f : DesktopFile) : Bool :=
  match f.entry.entry_type with
  | EntryType.application app => app.exec.isSome
  | _ => false

/-- The entry `parse_desktop_entries` builds for a kept record:
`AppEntry::default()` with only `name` and `exec` overwritten (keywords,
categories and all cached buffers are left at their defaults). -/
def mkParsedEntry (f : DesktopFile) : AppEntry :=
  match f.entry.entry_type with
  | EntryType.application app =>
      { AppEntry.default with
          name := f.entry.name.default
          exec := app.exec.getD "" }
  | _ => AppEntry.default

/-- `parse_desktop_entries` from src/entry_handler.rs: `filter_map` over
the records, keeping `Application`-typed records whose `exec` is present
(`app.exec.as_ref()?` drops the record otherwise); the Rust function
returns `Result` but never an error, so it is modelled as total. -/
def parse_desktop_entries (desktop_entries : List DesktopFile) : List AppEntry :=
  desktop_entries.filterMap (fun entry =>
    match entry.entry.entry_type with
    | EntryType.application app =>
        app.exec.map (fun ex =>
          { AppEntry.default with
              name := entry.entry.name.default
              exec := ex })
    | _ => none)

/-- The sort key of a scored entry: its cached aggregate score (0 when
absent; after `compute_score` the score is always present). -/
def key (e : AppEntry) : Nat :=
  e.score.getD 0

/-- Modelled from the spec: whether an entry has at least one
contributing match — the query fuzzy-matches the name or some keyword.
The repository contains no ranking pass (only `compute_score`); this is
the spec's exclusion test for results. -/
def matched (p : Pattern) (e : AppEntry) : Bool :=
  (p.score e.name.data).isSome || e.keywords.any (fun k => (p.score k.data).isSome)

/-- Insert an entry into a list sorted by descending key, before the
first strictly-smaller key, i.e. after every earlier entry of greater or
equal key (stable for ties). -/
def insertDesc (e : AppEntry) : List AppEntry → List AppEntry
  | [] => [e]
  | x :: xs => if key x ≤ key e then e :: x :: xs else x :: insertDesc e xs

/-- Stable insertion sort by descending key: ties keep their input
order. -/
def sortDesc : List AppEntry → List AppEntry
  | [] => []
  | x :: xs => insertDesc x (sortDesc xs)

/-- Modelled from the spec: the ranking pass `rank(store, query)`.  The
repository has no such function (only the per-entry `compute_score`);
per the spec, every entry is scored with `compute_score`, entries with
zero contributing matches are excluded, and the rest are ordered by
strictly descending aggregate score with ties broken by Entry Store
order.  Returns the store after scoring together with the ordered
results. -/
def rank (entries : List AppEntry) (p : Pattern) : List AppEntry × List AppEntry :=
  let scored := entries.map (AppEntry.compute_score p)
  (scored, sortDesc (scored.filter (matched p)))

/-- `Config` from src/main.rs: the list of directories to scan. -/
structure Config where
  directories : List String
deriving Repr, DecidableEq

/-- The directory `main`'s discovery loop passes to
`get_desktop_entries` on the iteration for a given configured
directory: the loop body ignores the loop variable and always passes
the literal `"/home/cheshire/.local/share/applications/"`. -/
def scannedDirectory (_directory : String) : String :=
  "/home/cheshire/.local/share/applications/"

/-- The sequence of directory arguments `main` passes to
`get_desktop_entries` across the discovery loop, one per configured
directory. -/
def scannedDirectories (config : Config) : List String :=
  config.directories.map scannedDirectory

/-- The display decision in `main`'s loop over desktop files:
`let display = desktop_file.entry.no_display.unwrap_or(true)`; the file
is skipped (`continue`) when `display` is false. -/
def display (desktop_file : DesktopFile) : Bool :=
  desktop_file.entry.no_display.getD true

/-- A desktop file is skipped by `main`'s display loop exactly when
`display` is false. -/
def skipped (desktop_file : DesktopFile) : Bool :=
  !display desktop_file

/-- The aggregate total `compute_score` writes: 5 times the name's
score when present, plus the scores of the keywords that are paired
with a buffer by the zip.  (`utf32New` always yields the decoded source
string as the haystack, so this is a plain restatement of the
accumulation in `compute_score`, proved as `compute_score_eq`.) -/
def scoreTotal (p : Pattern) (e : AppEntry) : Nat :=
  5 * (p.score e.name.data).getD 0 +
    ((AppEntry.utf32Zip e.keywords e.keywords_buffers).1.map
      (fun h => (p.score h).getD 0)).sum

/-- The spec's first scenario record: `{name:"Firefox",
exec:"/usr/bin/firefox", keywords:["web","browser"]}`, as a parsed
desktop file. -/
def firefoxFile : DesktopFile :=
  { entry :=
    { name := { default := "Firefox" }
      entry_type := EntryType.application
        { exec := some "/usr/bin/firefox"
          keywords := ["web", "browser"]
          categories := [] }
      no_display := none } }

/-- The spec's second scenario record: `{name:"Files",
exec:"/usr/bin/nautilus", keywords:["browser","manager"]}`. -/
def filesFile : DesktopFile :=
  { entry :=
    { name := { default := "Files" }
      entry_type := EntryType.application
        { exec := some "/usr/bin/nautilus"
          keywords := ["browser", "manager"]
          categories := [] }
      no_display := none } }

/-- The scenario entries as the intended constructor `AppEntry::new`
would build them (text fields plus in-sync buffers). -/
def firefoxEntry : AppEntry :=
  AppEntry.new "Firefox" "/usr/bin/firefox" ["web", "browser"] []

/-- The second scenario entry via `AppEntry::new`. -/
def filesEntry : AppEntry :=
  AppEntry.new "Files" "/usr/bin/nautilus" ["browser", "manager"] []

/-- A fuzzy pattern standing for the query `"browser"`: it matches the
exact haystack `browser` (with some positive score) and nothing else
among the scenario's texts. -/
def pBrowser : Pattern :=
  { score := fun h => if h = "browser".data then some 1 else none }

/-- A fuzzy pattern standing for the query `"fire"`: among the
scenario's texts it fuzzy-matches only the name `Firefox`. -/
def pFire : Pattern :=
  { score := fun h => if h = "Firefox".data then some 2 else none }

/-- A pattern that matches nothing (a query fuzzy-matching neither any
name nor any keyword). -/
def pNone : Pattern :=
  { score := fun _ => none }

/-- The haystack produced by `Utf32Str::new` is always the string's
decoded characters, whichever branch is taken. -/
theorem utf32New_fst (s : String) (b : List Char) : (utf32New s b).1 = s.data := by
  unfold utf32New
  split <;> rfl

/-- Refilling a buffer through `Utf32Str::new` is stable: running it
again on the buffer it produced changes nothing. -/
theorem utf32New_stable (s : String) (b : List Char) :
    utf32New s (utf32New s b).2 = utf32New s b := by
  unfold utf32New
  split <;> simp

/-- The haystacks of the keyword pass are the decoded keywords of the
`zip`-truncated prefix. -/
theorem utf32Zip_fst (ks : List String) (bs : List (List Char)) :
    (AppEntry.utf32Zip ks bs).1 = (ks.zip bs).map (fun kb => kb.1.data) := by
  induction ks generalizing bs with
  | nil => cases bs <;> rfl
  | cons k ks ih =>
      cases bs with
      | nil => rfl
      | cons b bs =>
          simp [AppEntry.utf32Zip, utf32New_fst, ih]

/-- When every keyword has a buffer, the keyword haystacks are exactly
the decoded keywords. -/
theorem utf32Zip_fst_of_le (ks : List String) (bs : List (List Char))
    (h : ks.length ≤ bs.length) :
    (AppEntry.utf32Zip ks bs).1 = ks.map String.data := by
  induction ks generalizing bs with
  | nil => cases bs <;> rfl
  | cons k ks ih =>
      cases bs with
      | nil => simp at h
      | cons b bs =>
          simp only [List.length_cons, Nat.add_le_add_iff_right] at h
          simp [AppEntry.utf32Zip, utf32New_fst, ih bs h]

/-- The keyword buffer pass is stable: running the zip again on the
buffers it produced reproduces both the haystacks and the buffers. -/
theorem utf32Zip_stable (ks : List String) (bs : List (List Char)) :
    AppEntry.utf32Zip ks (AppEntry.utf32Zip ks bs).2 = AppEntry.utf32Zip ks bs := by
  induction ks generalizing bs with
  | nil => cases bs <;> rfl
  | cons k ks ih =>
      cases bs with
      | nil => rfl
      | cons b bs =>
          simp [AppEntry.utf32Zip, utf32New_stable, ih bs]

/-- Normal form of `compute_score`: the text fields and the category
buffers are untouched, the name and keyword buffers go through the
`Utf32Str::new` refill, and the score is overwritten with the
aggregate total. -/
theorem compute_score_eq (p : Pattern) (e : AppEntry) :
    e.compute_score p =
      { e with
          name_buffer := (utf32New e.name e.name_buffer).2
          keywords_buffers := (AppEntry.utf32Zip e.keywords e.keywords_buffers).2
          score := some (scoreTotal p e) } := by
  unfold AppEntry.compute_score AppEntry.name_utf32 AppEntry.keywords_utf32 scoreTotal
  cases h : p.score e.name.data <;>
    simp [utf32New_fst, h]

/-- Scoring leaves the name unchanged. -/
theorem compute_score_name (p : Pattern) (e : AppEntry) :
    (e.compute_score p).name = e.name := by
  rw [compute_score_eq]

/-- Scoring leaves the keywords unchanged. -/
theorem compute_score_keywords (p : Pattern) (e : AppEntry) :
    (e.compute_score p).keywords = e.keywords := by
  rw [compute_score_eq]

/-- A scored entry matches the pattern iff the original does: `matched`
only reads the name and keywords, which scoring does not touch. -/
theorem matched_compute_score (p : Pattern) (e : AppEntry) :
    matched p (e.compute_score p) = matched p e := by
  unfold matched
  rw [compute_score_name, compute_score_keywords]

/-- `compute_score` is idempotent on the whole entry state: a second
pass with the same pattern rewrites the same buffers and the same
score. -/
theorem compute_score_idem (p : Pattern) (e : AppEntry) :
    (e.compute_score p).compute_score p = e.compute_score p := by
  rw [compute_score_eq p e, compute_score_eq]
  simp only [utf32New_stable, utf32Zip_stable, scoreTotal]

/-- Membership in `insertDesc`. -/
theorem mem_insertDesc {a e : AppEntry} {l : List AppEntry} :
    a ∈ insertDesc e l ↔ a = e ∨ a ∈ l := by
  induction l with
  | nil => simp [insertDesc]
  | cons x xs ih =>
      unfold insertDesc
      split
      · simp
      · simp [ih]
        tauto

/-- Membership in `sortDesc`. -/
theorem mem_sortDesc {a : AppEntry} {l : List AppEntry} :
    a ∈ sortDesc l ↔ a ∈ l := by
  induction l with
  | nil => simp [sortDesc]
  | cons x xs ih => simp [sortDesc, mem_insertDesc, ih]

/-- Inserting into a list that is pairwise non-increasing in key keeps
it pairwise non-increasing. -/
theorem pairwise_insertDesc {e : AppEntry} {l : List AppEntry}
    (h : l.Pairwise (fun a b => key b ≤ key a)) :
    (insertDesc e l).Pairwise (fun a b => key b ≤ key a) := by
  induction l with
  | nil => simp [insertDesc]
  | cons x xs ih =>
      rw [List.pairwise_cons] at h
      unfold insertDesc
      split
      · rename_i hle
        rw [List.pairwise_cons]
        refine ⟨?_, List.pairwise_cons.2 h⟩
        intro b hb
        rcases List.mem_cons.1 hb with hb | hb
        · exact hb ▸ hle
        · exact Nat.le_trans (h.1 b hb) hle
      · rename_i hgt
        rw [List.pairwise_cons]
        refine ⟨?_, ih h.2⟩
        intro b hb
        rcases mem_insertDesc.1 hb with hb | hb
        · exact hb ▸ Nat.le_of_lt (Nat.lt_of_not_le hgt)
        · exact h.1 b hb

/-- `sortDesc` sorts the list non-increasingly by key. -/
theorem sortDesc_sorted (l : List AppEntry) :
    (sortDesc l).Pairwise (fun a b => key b ≤ key a) := by
  induction l with
  | nil => simp [sortDesc]
  | cons x xs ih => exact pairwise_insertDesc ih

/-- Stability of the insertion step, stated per key value: the
subsequence of any fixed key is that of consing the element in front. -/
theorem insertDesc_filter (e : AppEntry) (s : Nat) (l : List AppEntry) :
    (insertDesc e l).filter (fun a => key a == s) =
      (e :: l).filter (fun a => key a == s) := by
  induction l with
  | nil => rfl
  | cons x xs ih =>
      unfold insertDesc
      split
      · rfl
      · rename_i hgt
        have hlt : key e < key x := Nat.lt_of_not_le hgt
        by_cases hx : key x = s
        · have he : (key e == s) = false := by
            subst hx
            exact beq_false_of_ne (Nat.ne_of_lt hlt)
          simp only [List.filter_cons, he, hx, beq_self_eq_true, if_true, if_false,
            cond_true, cond_false] at *
          simp [List.filter_cons, he, hx, ih]
        · have hx' : (key x == s) = false := beq_false_of_ne hx
          simp [List.filter_cons, hx', ih]

/-- Stability of `sortDesc`: for every key value, the entries of that
key appear in the sorted list exactly in their input order. -/
theorem sortDesc_filter (s : Nat) (l : List AppEntry) :
    (sortDesc l).filter (fun a => key a == s) = l.filter (fun a => key a == s) := by
  induction l with
  | nil => rfl
  | cons x xs ih =>
      rw [sortDesc, insertDesc_filter]
      simp only [List.filter_cons, ih]

/-- Every entry of the result sequence has at least one contributing
match. -/
theorem rank_mem_matched {entries : List AppEntry} {p : Pattern} {e : AppEntry}
    (h : e ∈ (rank entries p).2) : matched p e = true := by
  unfold rank at h
  simp only [mem_sortDesc, List.mem_filter] at h
  exact h.2

/-- Characterization of `parse_desktop_entries`: it keeps exactly the
launchable records, in order, and builds each kept entry from its
record. -/
theorem parse_eq (files : List DesktopFile) :
    parse_desktop_entries files = (files.filter launchable).map mkParsedEntry := by
  induction files with
  | nil => rfl
  | cons f fs ih =>
      cases hT : f.entry.entry_type with
      | application app =>
          cases hE : app.exec with
          | none =>
              simp [parse_desktop_entries, List.filterMap_cons, hT, hE,
                List.filter_cons, launchable, ih, parse_desktop_entries] at *
              simpa [parse_desktop_entries] using ih
          | some ex =>
              simp [parse_desktop_entries, List.filterMap_cons, hT, hE,
                List.filter_cons, launchable, mkParsedEntry, Option.map] at *
              simpa [parse_desktop_entries] using ih
      | link =>
          simp [parse_desktop_entries, List.filterMap_cons, hT,
            List.filter_cons, launchable] at *
          simpa [parse_desktop_entries] using ih
      | directory =>
          simp [parse_desktop_entries, List.filterMap_cons, hT,
            List.filter_cons, launchable] at *
          simpa [parse_desktop_entries] using ih
      | other =>
          simp [parse_desktop_entries, List.filterMap_cons, hT,
            List.filter_cons, launchable] at *
          simpa [parse_desktop_entries] using ih

/-- Claim C1: `parse_desktop_entries` includes an entry only for records
of entry type application with an executable command present; all other
records are dropped (the function is total, never an error), and the
entry count is at most the record count. -/
theorem c1_parse_keeps_only_launchable (files : List DesktopFile) :
    (parse_desktop_entries files).length ≤ files.length ∧
    ∀ e ∈ parse_desktop_entries files, ∃ f ∈ files, ∃ app,
      f.entry.entry_type = EntryType.application app ∧ app.exec = some e.exec := by
  constructor
  · rw [parse_eq, List.length_map]
    exact List.length_filter_le _ _
  · intro e he
    rw [parse_eq, List.mem_map] at he
    obtain ⟨f, hf, rfl⟩ := he
    rw [List.mem_filter] at hf
    refine ⟨f, hf.1, ?_⟩
    have hl := hf.2
    cases hT : f.entry.entry_type with
    | application app =>
        cases hE : app.exec with
        | none => simp [launchable, hT, hE] at hl
        | some ex =>
            refine ⟨app, rfl, ?_⟩
            simp [mkParsedEntry, hT, hE]
    | link => simp [launchable, hT] at hl
    | directory => simp [launchable, hT] at hl
    | other => simp [launchable, hT] at hl

/-- Claim C6: scoring an entry changes at most its score and its private
cached decoding buffers; the four textual fields are unchanged. -/
theorem c6_compute_score_frame (p : Pattern) (e : AppEntry) :
    (e.compute_score p).name = e.name ∧
    (e.compute_score p).exec = e.exec ∧
    (e.compute_score p).keywords = e.keywords ∧
    (e.compute_score p).categories = e.categories ∧
    ∃ nb kbs sc, e.compute_score p =
      { e with name_buffer := nb, keywords_buffers := kbs, score := sc } := by
  rw [compute_score_eq]
  exact ⟨rfl, rfl, rfl, rfl, (utf32New e.name e.name_buffer).2,
    (AppEntry.utf32Zip e.keywords e.keywords_buffers).2, some (scoreTotal p e), rfl⟩

/-- Claim C9 (code bug): the discovery loop does not pass the configured
directory to `get_desktop_entries` — for the configuration listing only
`/usr/share/applications`, the directory actually scanned is the
hard-coded `/home/cheshire/.local/share/applications/`. -/
theorem c9_discovery_ignores_config :
    scannedDirectories { directories := ["/usr/share/applications"] } =
      ["/home/cheshire/.local/share/applications/"] ∧
    scannedDirectories { directories := ["/usr/share/applications"] } ≠
      ["/usr/share/applications"] := by
  exact ⟨rfl, by decide⟩

/-- Claim C10: a desktop file is skipped by the display loop exactly
when its `NoDisplay` flag is `Some(false)`; an absent flag or
`Some(true)` means the file is displayed. -/
theorem c10_skip_iff_no_display_false (f : DesktopFile) :
    (skipped f = true ↔ f.entry.no_display = some false) ∧
    (skipped f = false ↔
      (f.entry.no_display = none ∨ f.entry.no_display = some true)) := by
  cases h : f.entry.no_display with
  | none => simp [skipped, display, h]
  | some b => cases b <;> simp [skipped, display, h]

/-- Claim C3: for an entry whose keyword buffers cover its keywords (as
every construction path produces), the aggregate written by
`compute_score` is 5 times the name's fuzzy score (0 when the name does
not match) plus the unweighted sum of the keywords' fuzzy scores. -/
theorem c3_aggregate_weighting (p : Pattern) (e : AppEntry)
    (h : e.keywords.length ≤ e.keywords_buffers.length) :
    (e.compute_score p).score =
      some (5 * (p.score e.name.data).getD 0 +
        (e.keywords.map (fun k => (p.score k.data).getD 0)).sum) := by
  rw [compute_score_eq]
  simp only [scoreTotal, utf32Zip_fst_of_le _ _ h, List.map_map]
  rfl

/-- Witness for C3 at a concrete input: the scenario's Firefox entry
against the browser pattern matches one keyword with score 1 and no
name, for an aggregate of `5 * 0 + 1`. -/
theorem c3_aggregate_weighting_witness :
    (firefoxEntry.compute_score pBrowser).score = some 1 :=
  (c3_aggregate_weighting pBrowser firefoxEntry (by decide)).trans (by decide)

/-- Counterexample to claim C2 as stated: an entry matching neither by
name nor by any keyword does not keep an absent score — `compute_score`
unconditionally writes `Some`, here `Some 0`. -/
theorem c2_counterexample_score_written :
    (firefoxEntry.compute_score pNone).score = some 0 ∧
    (firefoxEntry.compute_score pNone).score ≠ none := by
  decide

/-- Claim C2 as amended: when neither the name nor any keyword matches,
`compute_score` assigns the entry the score `Some 0` (not an absent
score), and the entry is excluded from every ranking pass's result
sequence. -/
theorem c2_no_match_excluded (p : Pattern) (e : AppEntry)
    (hn : p.score e.name.data = none)
    (hk : ∀ k ∈ e.keywords, p.score k.data = none) :
    (e.compute_score p).score = some 0 ∧
    ∀ es, e.compute_score p ∉ (rank es p).2 := by
  have hm : matched p e = false := by
    unfold matched
    rw [hn]
    simp only [Option.isSome_none, Bool.false_or, List.any_eq_false]
    intro k hkk
    rw [hk k hkk]
    simp
  constructor
  · have hsum :
        (((AppEntry.utf32Zip e.keywords e.keywords_buffers).1).map
          (fun h => (p.score h).getD 0)).sum = 0 := by
      apply List.sum_eq_zero
      intro x hx
      rw [utf32Zip_fst, List.map_map] at hx
      obtain ⟨kb, hkb, rfl⟩ := List.mem_map.1 hx
      have hknone := hk kb.1 (List.of_mem_zip hkb).1
      simp [Function.comp, hknone]
    rw [compute_score_eq]
    simp [scoreTotal, hn, hsum]
  · intro es hmem
    have hmatch := rank_mem_matched hmem
    rw [matched_compute_score, hm] at hmatch
    exact Bool.false_ne_true hmatch

/-- Witness for C2's amended claim at a concrete input: the Firefox
entry under a pattern matching nothing. -/
theorem c2_no_match_excluded_witness :
    (firefoxEntry.compute_score pNone).score = some 0 ∧
    ∀ es, firefoxEntry.compute_score pNone ∉ (rank es pNone).2 :=
  c2_no_match_excluded pNone firefoxEntry rfl (fun _ _ => rfl)

/-- Claim C7: a second ranking pass over the already-ranked store with
the same pattern reproduces the scored store and the result sequence
exactly (scoring is idempotent on entry state). -/
theorem c7_rank_idempotent (entries : List AppEntry) (p : Pattern) :
    rank (rank entries p).1 p = rank entries p := by
  unfold rank
  simp only [List.map_map]
  have hmap : entries.map (AppEntry.compute_score p ∘ AppEntry.compute_score p) =
      entries.map (AppEntry.compute_score p) :=
    List.map_congr_left (fun e _ => compute_score_idem p e)
  rw [hmap]

/-- Claim C8: the result sequence is ordered by non-increasing score
with equal-score entries kept in store order (strictly descending up to
the permitted ties), an empty store yields an empty result, and a
pattern matching no entry yields an empty result — all without any
error. -/
theorem c8_rank_ordering (entries : List AppEntry) (p : Pattern) :
    (rank entries p).2.Pairwise (fun a b => key b ≤ key a) ∧
    (∀ s, (rank entries p).2.filter (fun e => key e == s) =
      ((rank entries p).1.filter (matched p)).filter (fun e => key e == s)) ∧
    (rank [] p).2 = [] ∧
    ((∀ e ∈ entries, matched p e = false) → (rank entries p).2 = []) := by
  refine ⟨sortDesc_sorted _, fun s => sortDesc_filter s _, rfl, ?_⟩
  intro h
  have hfil : (entries.map (AppEntry.compute_score p)).filter (matched p) = [] := by
    rw [List.filter_eq_nil_iff]
    intro a ha
    obtain ⟨e, he, rfl⟩ := List.mem_map.1 ha
    rw [matched_compute_score, h e he]
    exact Bool.false_ne_true
  show sortDesc ((entries.map (AppEntry.compute_score p)).filter (matched p)) = []
  rw [hfil]
  rfl

/-- Claim C4 (code bug): `parse_desktop_entries` builds entries via
`AppEntry::default()` and overwrites only `name` and `exec`, so the
cached buffers of its entries are empty rather than the decoded name
and keywords; the intended constructor `AppEntry::new` does establish
the claimed correspondence. -/
theorem c4_parse_leaves_buffers_empty :
    ((parse_desktop_entries [firefoxFile, filesFile]).map
      (fun e => (e.name, e.name_buffer, e.keywords_buffers))) =
      [("Firefox", [], []), ("Files", [], [])] ∧
    "Firefox".data ≠ [] ∧
    firefoxEntry.name_buffer = "Firefox".data ∧
    firefoxEntry.keywords_buffers = ["web".data, "browser".data] := by
  decide

/-- Claim C5 (code bug): `parse_desktop_entries` never copies the
records' keywords, so both scenario entries come out with no keywords
and the browser query (matched only via keywords) returns nothing;
built with `AppEntry::new` as intended, the scenario behaves as
claimed — `fire` yields Firefox alone via its name, `browser` yields
both entries with tied score 1 and Firefox first in store order. -/
theorem c5_scenario_keywords_lost :
    (parse_desktop_entries [firefoxFile, filesFile]).map AppEntry.keywords =
      [[], []] ∧
    (rank (parse_desktop_entries [firefoxFile, filesFile]) pBrowser).2 = [] ∧
    (rank (parse_desktop_entries [firefoxFile, filesFile]) pFire).2.map
      AppEntry.name = ["Firefox"] ∧
    (rank [firefoxEntry, filesEntry] pFire).2.map AppEntry.name = ["Firefox"] ∧
    (rank [firefoxEntry, filesEntry] pBrowser).2.map AppEntry.name =
      ["Firefox", "Files"] ∧
    (rank [firefoxEntry, filesEntry] pBrowser).2.map AppEntry.score =
      [some 1, some 1] := by
  decide

end Launcher
